import Mathlib

/-!
A shallow embedding of the graphite repository: the schema compiler
(src/graph/build.rs) and the transactional graph engine
(src/graph/src/lib.rs), together with the artifacts the compiler generates
for the concrete schema the specification uses throughout (node kinds
Person and Company, edge kind EmploysAt with one connection rule
Employment from Person to Company).

External collaborators (the rocksdb transactional store, the rmp-serde
codec, the xid identifier generator, and the Rust standard library's
string split) are modelled at their documented interfaces, as the
specification directs.
-/

/-! ## Schema compiler input: the deserialization structures of build.rs -/

structure SchemaField where
  name : String
  type_name : String
deriving DecidableEq

structure SchemaNode where
  name : String
  fields : List SchemaField
deriving DecidableEq

/-- One connection rule of an edge kind. Rust names the first field `from`,
a keyword in Lean, hence `from_`. -/
structure SchemaConnection where
  from_ : String
  to_ : String
  name : String
deriving DecidableEq

structure SchemaEdge where
  name : String
  connections : List SchemaConnection
  fields : List SchemaField
deriving DecidableEq

structure Schema where
  nodes : List SchemaNode
  edges : List SchemaEdge
deriving DecidableEq

/-! ## The compiler's node_edge_types map

build.rs keeps `node_edge_types : HashMap<String, (Vec<String>, Vec<String>)>`
mapping a node-kind name to its (inbound edge kinds, outbound edge kinds).
The map is used only through per-key entry/get, so an association list with
at most one binding per key is a faithful model. -/

abbrev EdgePair := List String × List String

abbrev EdgeMap := List (String × EdgePair)

def lookupA {A : Type} : List (String × A) → String → Option A
  | [], _ => none
  | (k, v) :: r, key => if key = k then some v else lookupA r key

/-- Models `map.entry(k).or_insert(d)` followed by an in-place update `f` of
the entry: the first binding of `k` is updated, or `(k, f d)` is appended. -/
def upsert {A : Type} (k : String) (d : A) (f : A → A) : List (String × A) → List (String × A)
  | [] => [(k, f d)]
  | (k2, v) :: r => if k = k2 then (k2, f v) :: r else (k2, v) :: upsert k d f r

/-- build.rs line 129: `entry_from.1.push(edge_name)` guarded by `contains`:
record `edgeName` among the node kind's outbound edge kinds. -/
def addOutEdge (edgeName : String) (p : EdgePair) : EdgePair :=
  if edgeName ∈ p.2 then p else (p.1, p.2 ++ [edgeName])

/-- build.rs line 136: `entry_to.0.push(edge_name)` guarded by `contains`:
record `edgeName` among the node kind's inbound edge kinds. -/
def addInEdge (edgeName : String) (p : EdgePair) : EdgePair :=
  if edgeName ∈ p.1 then p else (p.1 ++ [edgeName], p.2)

/-- One iteration of build.rs's `for connection in &edge.connections` loop:
the edge kind is recorded as outbound for the connection's source kind and
as inbound for its target kind. -/
def processConnection (edgeName : String) (m : EdgeMap) (c : SchemaConnection) : EdgeMap :=
  upsert c.to_ ([], []) (addInEdge edgeName) (upsert c.from_ ([], []) (addOutEdge edgeName) m)

/-- The finished `node_edge_types` map after build.rs's edge loop. -/
def nodeEdgeTypes (s : Schema) : EdgeMap :=
  s.edges.foldl (fun m e => e.connections.foldl (processConnection e.name) m) []

/-- The connection rules of a list of edge kinds, each paired with the name
of the edge kind declaring it, in the compiler's processing order. -/
def connPairs : List SchemaEdge → List (String × SchemaConnection)
  | [] => []
  | e :: es => e.connections.map (fun c => (e.name, c)) ++ connPairs es

def insOf (m : EdgeMap) (N : String) : List String := ((lookupA m N).getD ([], [])).1

def outsOf (m : EdgeMap) (N : String) : List String := ((lookupA m N).getD ([], [])).2

/-- The schema declares, on some edge kind named E, at least one connection
whose target is N. -/
def schemaHasInEdge (s : Schema) (N E : String) : Bool :=
  s.edges.any (fun e => e.name == E && e.connections.any (fun c => c.to_ == N))

/-- The schema declares, on some edge kind named E, at least one connection
whose source is N. -/
def schemaHasOutEdge (s : Schema) (N E : String) : Bool :=
  s.edges.any (fun e => e.name == E && e.connections.any (fun c => c.from_ == N))

/-- The `families` vector build.rs accumulates and emits as the `families()`
function: `families.push` appears only inside the edge loop (line 109), so
the enumeration holds the edge-kind names alone. -/
def familiesOf (s : Schema) : List String :=
  s.edges.foldl (fun acc e => acc ++ [e.name]) []

/-- build.rs's node loop fetches each node kind's entry with
`node_edge_types.get(&node.name).unwrap()` (line 248); `none` models the
panic of that `unwrap` when the kind appears in no connection rule. -/
def buildNodeLoopAux (m : EdgeMap) : List SchemaNode → Option (List (String × EdgePair))
  | [] => some []
  | n :: rest =>
    match lookupA m n.name with
    | none => none
    | some p => (buildNodeLoopAux m rest).map (fun l => (n.name, p) :: l)

/-- The node-generation loop of build.rs's main, reduced to the data it
threads: `none` when any declared node kind makes the `unwrap` panic. -/
def buildNodeLoop (s : Schema) : Option (List (String × EdgePair)) :=
  buildNodeLoopAux (nodeEdgeTypes s) s.nodes

def idSuffix : String := "Id"

/-- The variants of a generated in/out ref sum type: one per recorded edge
kind, the variant named `{E}Id` and carrying the identifier type `{E}Id`
(build.rs lines 250-255 and 276-285). -/
def refVariantsOf (edgeKinds : List String) : List (String × String) :=
  edgeKinds.map (fun e => (e ++ idSuffix, e ++ idSuffix))

/-- The body of every generated identifier constructor:
`format!(concat!(stringify!(K), ":{}"), id.unwrap_or_else(|| xid::new().to_string()))`.
`fresh` stands for the token `xid::new().to_string()` would return on this
call. -/
def generatedIdNew (kind : String) (tok : Option String) (fresh : String) : String :=
  kind ++ ":" ++ tok.getD fresh

/-- Modelled from the spec: the identifier-generation primitive (the
external `xid` crate) is out of scope and assumed to provide an opaque,
sortable, collision-resistant token; an xid renders as a fixed 20-character
base32-hex string, modelled here as the base32-hex rendering of a 12-byte
counter. -/
def xidString (n : Nat) : String :=
  String.mk ((List.range 20).map
    (fun i => "0123456789abcdefghijklmnopqrstuv".toList.getD ((n / 32 ^ (19 - i)) % 32) 'x'))

/-! ## The generated type layer for the concrete schema -/

def personFam : String := "Person"

def companyFam : String := "Company"

def employsAtFam : String := "EmploysAt"

def defaultFam : String := "default"

/-- The schema of the specification's concrete scenario (section 8): node
kinds Person and Company, edge kind EmploysAt with the single connection
rule Employment from Person to Company. -/
def schemaPC : Schema :=
  ⟨[⟨personFam, [⟨"name", "String"⟩]⟩, ⟨companyFam, [⟨"name", "String"⟩]⟩],
   [⟨employsAtFam, [⟨personFam, companyFam, "Employment"⟩], [⟨"since", "i64"⟩]⟩]⟩

structure PersonId where
  val : String
deriving DecidableEq

structure CompanyId where
  val : String
deriving DecidableEq

structure EmploysAtId where
  val : String
deriving DecidableEq

/-- The generated Connection sum type for EmploysAt: one variant per
declared connection rule, carrying the source and target identifier
types. -/
inductive EmploysAtConnection
  | Employment : PersonId → CompanyId → EmploysAtConnection
deriving DecidableEq

/-- Person appears as target in no connection rule, so its inbound ref sum
type has no variants. -/
inductive PersonInEdge
deriving DecidableEq

inductive PersonOutEdge
  | EmploysAtId : EmploysAtId → PersonOutEdge
deriving DecidableEq

inductive CompanyInEdge
  | EmploysAtId : EmploysAtId → CompanyInEdge
deriving DecidableEq

/-- Company appears as source in no connection rule. -/
inductive CompanyOutEdge
deriving DecidableEq

structure Person where
  id : PersonId
  in_edge_ids : List PersonInEdge
  out_edge_ids : List PersonOutEdge
  name : String
deriving DecidableEq

structure Company where
  id : CompanyId
  in_edge_ids : List CompanyInEdge
  out_edge_ids : List CompanyOutEdge
  name : String
deriving DecidableEq

structure EmploysAt where
  id : EmploysAtId
  connection : EmploysAtConnection
  since : Int
deriving DecidableEq

def PersonId.new (tok : Option String) (fresh : String) : PersonId :=
  ⟨generatedIdNew personFam tok fresh⟩

def CompanyId.new (tok : Option String) (fresh : String) : CompanyId :=
  ⟨generatedIdNew companyFam tok fresh⟩

def EmploysAtId.new (tok : Option String) (fresh : String) : EmploysAtId :=
  ⟨generatedIdNew employsAtFam tok fresh⟩

def Person.new (tok : Option String) (fresh : String) (name : String) : Person :=
  ⟨PersonId.new tok fresh, [], [], name⟩

def Company.new (tok : Option String) (fresh : String) (name : String) : Company :=
  ⟨CompanyId.new tok fresh, [], [], name⟩

def EmploysAt.new (tok : Option String) (fresh : String)
    (connection : EmploysAtConnection) (since : Int) : EmploysAt :=
  ⟨EmploysAtId.new tok fresh, connection, since⟩

/-- The Edge contract lets the two endpoint identifiers be extracted from a
Connection value. -/
def EmploysAtConnection.endpoints : EmploysAtConnection → String × String
  | EmploysAtConnection.Employment p c => (p.val, c.val)

/-! ## The store model: rocksdb TransactionDB at its interface -/

/-- What one column-family cell holds: the rmp-serde encoding of a record.
The codec is external and assumed deterministic and lossless, so the bytes
are modelled by the record they encode, one constructor per record kind of
the concrete schema. -/
inductive StoredVal
  | person : Person → StoredVal
  | company : Company → StoredVal
  | employsAt : EmploysAt → StoredVal
deriving DecidableEq

abbrev FamKey := String × String

def assocPut : List (FamKey × StoredVal) → FamKey → StoredVal → List (FamKey × StoredVal)
  | [], fk, v => [(fk, v)]
  | (k, w) :: r, fk, v => if fk = k then (fk, v) :: r else (k, w) :: assocPut r fk v

def assocGet : List (FamKey × StoredVal) → FamKey → Option StoredVal
  | [], _ => none
  | (k, w) :: r, fk => if fk = k then some w else assocGet r fk

def assocDel : List (FamKey × StoredVal) → FamKey → List (FamKey × StoredVal)
  | [], _ => []
  | (k, w) :: r, fk => if fk = k then assocDel r fk else (k, w) :: assocDel r fk

/-- The embedded store: its column families and, per (family, key), the
stored bytes. -/
structure Store where
  families : List String
  data : List (FamKey × StoredVal)
deriving DecidableEq

/-- `db.cf_handle(name)`: `some` exactly when the family exists; the handle
is modelled by the family name itself. -/
def Store.cfHandle (g : Store) (name : String) : Option String :=
  if name ∈ g.families then some name else none

def Store.putCf (g : Store) (fam key : String) (v : StoredVal) : Store :=
  ⟨g.families, assocPut g.data (fam, key) v⟩

def Store.getCf (g : Store) (fam key : String) : Option StoredVal :=
  assocGet g.data (fam, key)

def Store.delCf (g : Store) (fam key : String) : Store :=
  ⟨g.families, assocDel g.data (fam, key)⟩

/-- A rocksdb transaction's buffered operations: nothing reaches the store
before commit; a transaction dropped without commit changes nothing. -/
inductive TxnOp
  | putOp : String → String → StoredVal → TxnOp
  | delOp : String → String → TxnOp
deriving DecidableEq

def txnApply (g : Store) : TxnOp → Store
  | TxnOp.putOp f k v => g.putCf f k v
  | TxnOp.delOp f k => g.delCf f k

def txnCommit (g : Store) (ops : List TxnOp) : Store :=
  ops.foldl txnApply g

/-! ## The graph engine: src/graph/src/lib.rs -/

/-- The GraphError enum of lib.rs; payloads carried by the Rust variants
(underlying rocksdb, codec or UTF-8 errors) are dropped. -/
inductive GraphError
  | EncodeError
  | DecodeError
  | OpenDbError
  | DestroyDbError
  | CreateNodeError
  | ReadNodeError
  | DeleteNodeError
  | UpdateNodeError
  | CreateEdgeError
  | DeleteError
  | FindFamiliesError
  | DbNotClosed
  | FindKeyError
  | NeighbourIndexError
  | ParseUtf8Error
  | NodeFamilyError
  | CreateFamilyError
  | FindFamilyError
  | ParseNodeIdError
  | EdgeFamilyError
deriving DecidableEq

/-- Models Rust `node_id.split(':').next()`: the first item of the split
iterator, which is the prefix of the string before its first ':' (the whole
string when no ':' occurs). The standard library's split always yields a
first item, so this is `some` for every input; the engine nevertheless
calls `.ok_or(ParseNodeIdError)` on it, which is kept here as the Option. -/
def rustSplitFirst (s : String) : Option String :=
  some (String.mk (s.toList.takeWhile (fun c => c != ':')))

/-- The capability contract the engine's node operations are generic over:
the generated `Node` trait (identifier rendering, owning family name) plus
the serde codec the engine applies to any record it stores. -/
class NodeRec (T : Type) where
  idStr : T → String
  familyName : T → String
  enc : T → StoredVal
  dec : StoredVal → Option T

instance : NodeRec Person where
  idStr p := p.id.val
  familyName _ := personFam
  enc := StoredVal.person
  dec v :=
    match v with
    | StoredVal.person p => some p
    | _ => none

instance : NodeRec Company where
  idStr c := c.id.val
  familyName _ := companyFam
  enc := StoredVal.company
  dec v :=
    match v with
    | StoredVal.company c => some c
    | _ => none

def create_family_if_not_exists (g : Store) (family_name : String) : Store :=
  if (g.cfHandle family_name).isNone then ⟨g.families ++ [family_name], g.data⟩ else g

/-- Graph::new over an opened store: the existing column families are
reopened, then `create_family_if_not_exists` runs once per name in the
generated `families()` enumeration. -/
def graphNew (existing : List String) (s : Schema) : Store :=
  (familiesOf s).foldl create_family_if_not_exists ⟨existing, []⟩

def add_node {T : Type} [NodeRec T] (g : Store) (node : T) : Except GraphError (T × Store) :=
  match g.cfHandle (NodeRec.familyName node) with
  | none => Except.error GraphError.FindFamilyError
  | some fam =>
    Except.ok (node, txnCommit g [TxnOp.putOp fam (NodeRec.idStr node) (NodeRec.enc node)])

def get_node {T : Type} [NodeRec T] (g : Store) (node_id : String) : Except GraphError T :=
  match rustSplitFirst node_id with
  | none => Except.error GraphError.ParseNodeIdError
  | some famName =>
    match g.cfHandle famName with
    | none => Except.error GraphError.FindFamilyError
    | some fam =>
      match g.getCf fam node_id with
      | some v =>
        match NodeRec.dec (T := T) v with
        | some t => Except.ok t
        | none => Except.error GraphError.DecodeError
      | none => Except.error GraphError.FindKeyError

def remove_node (g : Store) (node_id : String) : Except GraphError Store :=
  match rustSplitFirst node_id with
  | none => Except.error GraphError.ParseNodeIdError
  | some famName =>
    match g.cfHandle famName with
    | none => Except.error GraphError.FindFamilyError
    | some fam => Except.ok (txnCommit g [TxnOp.delOp fam node_id])

/-- update_node writes through `self.db.put_cf` directly: an immediate
single-key write, not routed through any caller's open transaction. -/
def update_node {T : Type} [NodeRec T] (g : Store) (node : T) : Except GraphError Store :=
  match g.cfHandle (NodeRec.familyName node) with
  | none => Except.error GraphError.FindFamilyError
  | some fam => Except.ok (g.putCf fam (NodeRec.idStr node) (NodeRec.enc node))

/-- Graph::add_edge, instantiated at the generated kinds (the source is
generic over `T: Edge, S: Node, R: Node`). The body follows the source: the
edge record is put through the freshly opened transaction and committed
only at the end, while the two endpoint nodes go through `update_node`,
whose direct `db.put_cf` writes land immediately, outside that transaction.
Three repairs make the source well-formed, which as written does not
compile: `from_node` and `to_node`, used but never bound, are taken as the
two node parameters the trait bounds `S` and `R` announce; the call to the
undeclared method `add_out_connection` is dropped; and the edge identifier
pushed into a ref set is wrapped in the node's ref sum type variant for the
edge's kind, as the generated `add_out_edge_id`/`add_in_edge_id` signatures
require. -/
def add_edge (g : Store) (edge : EmploysAt) (from_node : Person) (to_node : Company) :
    Except GraphError Unit × Store :=
  match g.cfHandle employsAtFam with
  | none => (Except.error GraphError.EdgeFamilyError, g)
  | some edgeFam =>
    let txnPuts : List TxnOp := [TxnOp.putOp edgeFam edge.id.val (StoredVal.employsAt edge)]
    let from2 : Person :=
      ⟨from_node.id, from_node.in_edge_ids,
        from_node.out_edge_ids ++ [PersonOutEdge.EmploysAtId edge.id], from_node.name⟩
    let to2 : Company :=
      ⟨to_node.id, to_node.in_edge_ids ++ [CompanyInEdge.EmploysAtId edge.id],
        to_node.out_edge_ids, to_node.name⟩
    match update_node g from2 with
    | Except.error e => (Except.error e, g)
    | Except.ok g1 =>
      match update_node g1 to2 with
      | Except.error e => (Except.error e, g1)
      | Except.ok g2 => (Except.ok (), txnCommit g2 txnPuts)

def get_edge (g : Store) (edge_id : EmploysAtId) : Except GraphError EmploysAt :=
  match g.cfHandle employsAtFam with
  | none => Except.error GraphError.EdgeFamilyError
  | some fam =>
    match g.getCf fam edge_id.val with
    | some v =>
      match v with
      | StoredVal.employsAt e => Except.ok e
      | _ => Except.error GraphError.DecodeError
    | none => Except.error GraphError.FindKeyError

/-- remove_edge first reads the edge back, then deletes the fetched
record's own key inside a transaction; nothing else is touched. -/
def remove_edge (g : Store) (edge_id : EmploysAtId) : Except GraphError Store :=
  match g.cfHandle employsAtFam with
  | none => Except.error GraphError.EdgeFamilyError
  | some fam =>
    match get_edge g edge_id with
    | Except.error e => Except.error e
    | Except.ok edge => Except.ok (txnCommit g [TxnOp.delOp fam edge.id.val])

/-! ## Concrete fixtures used by witnesses and counterexamples -/

def adaTok : String := "ada"

def acmeTok : String := "acme"

def graceTok : String := "grace"

def empTok : String := "emp1"

def adaName : String := "Ada"

def acmeName : String := "Acme"

def personW : Person := Person.new (some adaTok) (xidString 0) adaName

def companyW : Company := Company.new (some acmeTok) (xidString 1) acmeName

def edgeW : EmploysAt :=
  EmploysAt.new (some empTok) (xidString 2)
    (EmploysAtConnection.Employment personW.id companyW.id) 1843

/-- An edge whose Connection endpoints are not the endpoint nodes it will
be inserted between. -/
def edgeMismatch : EmploysAt :=
  EmploysAt.new (some empTok) (xidString 3)
    (EmploysAtConnection.Employment (PersonId.new (some graceTok) (xidString 4)) companyW.id)
    1843

/-- A store holding the Person family (created by hand) on top of what
Graph::new yields for the concrete schema, with Ada's record stored; the
Company family is absent, exactly as after Graph::new. -/
def storeNoCompany : Store :=
  ⟨[defaultFam, personFam, employsAtFam],
   [((personFam, personW.id.val), StoredVal.person personW)]⟩

/-- A store with every family of the concrete schema and both node records
present. -/
def storeAll : Store :=
  ⟨[defaultFam, personFam, companyFam, employsAtFam],
   [((personFam, personW.id.val), StoredVal.person personW),
    ((companyFam, companyW.id.val), StoredVal.company companyW)]⟩

/-- storeAll with the edge record also present. -/
def storeWithEdge : Store :=
  ⟨[defaultFam, personFam, companyFam, employsAtFam],
   [((personFam, personW.id.val), StoredVal.person personW),
    ((companyFam, companyW.id.val), StoredVal.company companyW),
    ((employsAtFam, edgeW.id.val), StoredVal.employsAt edgeW)]⟩

def abcFam : String := "abc"

/-- A person record as the engine could decode it from stored bytes: serde
deserialization places no constraint on the identifier field. -/
def personAbc : Person := ⟨⟨abcFam⟩, [], [], adaName⟩

def storeAbc : Store :=
  ⟨[defaultFam, abcFam], [((abcFam, abcFam), StoredVal.person personAbc)]⟩

def ghostFam : String := "Ghost"

/-- The concrete schema plus a node kind that no connection rule of any
edge kind mentions. -/
def schemaIso : Schema := ⟨schemaPC.nodes ++ [⟨ghostFam, []⟩], schemaPC.edges⟩

/-- Ada's record as add_edge rewrites it: the edge identifier appended to
the outbound ref set, wrapped in the EmploysAt variant. -/
def personWLinked : Person :=
  ⟨personW.id, personW.in_edge_ids,
    personW.out_edge_ids ++ [PersonOutEdge.EmploysAtId edgeW.id], personW.name⟩

/-- Ada's record with the same identifier but another name, for the
overwrite claim. -/
def personRenamed : Person := Person.new (some adaTok) (xidString 0) acmeName

/-- Acme's record as add_edge rewrites it: the edge identifier appended to
the inbound ref set. -/
def companyWLinked : Company :=
  ⟨companyW.id, companyW.in_edge_ids ++ [CompanyInEdge.EmploysAtId edgeW.id],
    companyW.out_edge_ids, companyW.name⟩

/-- The store a successful add_edge over storeAll produces: both node
records rewritten by the immediate update_node writes, then the buffered
edge write applied at commit. -/
def storeAfterEdge : Store :=
  ((storeAll.putCf personFam personW.id.val (StoredVal.person personWLinked)).putCf
      companyFam companyW.id.val (StoredVal.company companyWLinked)).putCf
    employsAtFam edgeW.id.val (StoredVal.employsAt edgeW)

/-- storeWithEdge after the edge record's key is deleted. -/
def storeEdgeRemoved : Store := storeWithEdge.delCf employsAtFam edgeW.id.val

/-! ## Helper lemmas about the association-list store -/

theorem assocGet_put_self (l : List (FamKey × StoredVal)) (fk : FamKey) (v : StoredVal) :
    assocGet (assocPut l fk v) fk = some v := by
  induction l with
  | nil => simp [assocPut, assocGet]
  | cons hd r ih =>
    obtain ⟨k, w⟩ := hd
    by_cases h : fk = k
    · simp [assocPut, h, assocGet]
    · simp [assocPut, h, assocGet, ih]

theorem assocGet_put_other (l : List (FamKey × StoredVal)) (fk fk2 : FamKey) (v : StoredVal)
    (h : fk2 ≠ fk) : assocGet (assocPut l fk v) fk2 = assocGet l fk2 := by
  induction l with
  | nil => simp [assocPut, assocGet, h]
  | cons hd r ih =>
    obtain ⟨k, w⟩ := hd
    by_cases hk : fk = k
    · subst hk
      simp [assocPut, assocGet, h]
    · simp [assocPut, hk, assocGet, ih]

theorem assocGet_del_self (l : List (FamKey × StoredVal)) (fk : FamKey) :
    assocGet (assocDel l fk) fk = none := by
  induction l with
  | nil => simp [assocDel, assocGet]
  | cons hd r ih =>
    obtain ⟨k, w⟩ := hd
    by_cases h : fk = k
    · subst h
      simp [assocDel, ih]
    · simp [assocDel, h, assocGet, ih]

theorem assocGet_del_other (l : List (FamKey × StoredVal)) (fk fk2 : FamKey)
    (h : fk2 ≠ fk) : assocGet (assocDel l fk) fk2 = assocGet l fk2 := by
  induction l with
  | nil => simp [assocDel, assocGet]
  | cons hd r ih =>
    obtain ⟨k, w⟩ := hd
    by_cases hk : fk = k
    · subst hk
      simp [assocDel, assocGet, h, ih]
    · simp [assocDel, hk, assocGet, ih]

theorem store_getCf_putCf_self (g : Store) (f k : String) (v : StoredVal) :
    (g.putCf f k v).getCf f k = some v :=
  assocGet_put_self g.data (f, k) v

theorem store_getCf_putCf_other (g : Store) (f k f2 k2 : String) (v : StoredVal)
    (h : (f2, k2) ≠ (f, k)) : (g.putCf f k v).getCf f2 k2 = g.getCf f2 k2 :=
  assocGet_put_other g.data (f, k) (f2, k2) v h

theorem store_getCf_delCf_self (g : Store) (f k : String) :
    (g.delCf f k).getCf f k = none :=
  assocGet_del_self g.data (f, k)

theorem store_getCf_delCf_other (g : Store) (f k f2 k2 : String)
    (h : (f2, k2) ≠ (f, k)) : (g.delCf f k).getCf f2 k2 = g.getCf f2 k2 :=
  assocGet_del_other g.data (f, k) (f2, k2) h

theorem store_families_putCf (g : Store) (f k : String) (v : StoredVal) :
    (g.putCf f k v).families = g.families := rfl

theorem store_families_delCf (g : Store) (f k : String) :
    (g.delCf f k).families = g.families := rfl

theorem store_cfHandle_mem (g : Store) (n : String) (h : n ∈ g.families) :
    g.cfHandle n = some n := by
  simp [Store.cfHandle, h]

theorem store_cfHandle_not_mem (g : Store) (n : String) (h : n ∉ g.families) :
    g.cfHandle n = none := by
  simp [Store.cfHandle, h]

theorem store_cfHandle_some (g : Store) (n fam : String) (h : g.cfHandle n = some fam) :
    fam = n ∧ n ∈ g.families := by
  by_cases hm : n ∈ g.families
  · simp [Store.cfHandle, hm] at h
    exact ⟨h.symm, hm⟩
  · simp [Store.cfHandle, hm] at h

theorem txnCommit_put (g : Store) (f k : String) (v : StoredVal) :
    txnCommit g [TxnOp.putOp f k v] = g.putCf f k v := rfl

theorem txnCommit_del (g : Store) (f k : String) :
    txnCommit g [TxnOp.delOp f k] = g.delCf f k := rfl

/-! ## Instance projection lemmas -/

theorem nodeRec_person_familyName (p : Person) : NodeRec.familyName p = personFam := rfl

theorem nodeRec_person_idStr (p : Person) : NodeRec.idStr p = p.id.val := rfl

theorem nodeRec_person_enc (p : Person) : NodeRec.enc p = StoredVal.person p := rfl

theorem nodeRec_person_dec (p : Person) :
    NodeRec.dec (StoredVal.person p) = some p := rfl

theorem nodeRec_company_familyName (c : Company) : NodeRec.familyName c = companyFam := rfl

theorem nodeRec_company_idStr (c : Company) : NodeRec.idStr c = c.id.val := rfl

theorem nodeRec_company_enc (c : Company) : NodeRec.enc c = StoredVal.company c := rfl

theorem nodeRec_company_dec (c : Company) :
    NodeRec.dec (StoredVal.company c) = some c := rfl

/-! ## Evaluation lemmas for the engine operations -/

theorem update_node_found {T : Type} [NodeRec T] (g : Store) (t : T)
    (h : NodeRec.familyName t ∈ g.families) :
    update_node g t
      = Except.ok (g.putCf (NodeRec.familyName t) (NodeRec.idStr t) (NodeRec.enc t)) := by
  simp [update_node, store_cfHandle_mem g _ h]

theorem update_node_missing {T : Type} [NodeRec T] (g : Store) (t : T)
    (h : NodeRec.familyName t ∉ g.families) :
    update_node g t = Except.error GraphError.FindFamilyError := by
  simp [update_node, store_cfHandle_not_mem g _ h]

theorem add_node_found {T : Type} [NodeRec T] (g : Store) (t : T)
    (h : NodeRec.familyName t ∈ g.families) :
    add_node g t
      = Except.ok (t, g.putCf (NodeRec.familyName t) (NodeRec.idStr t) (NodeRec.enc t)) := by
  simp [add_node, store_cfHandle_mem g _ h, txnCommit_put]

theorem get_node_eval {T : Type} [NodeRec T] (g : Store) (nid fam : String)
    (v : StoredVal) (t : T) (h1 : rustSplitFirst nid = some fam) (h2 : fam ∈ g.families)
    (h3 : g.getCf fam nid = some v) (h4 : NodeRec.dec (T := T) v = some t) :
    get_node g nid = Except.ok t := by
  simp [get_node, h1, store_cfHandle_mem g _ h2, h3, h4]

theorem get_edge_eval (g : Store) (eid : EmploysAtId) (e : EmploysAt)
    (h2 : employsAtFam ∈ g.families)
    (h3 : g.getCf employsAtFam eid.val = some (StoredVal.employsAt e)) :
    get_edge g eid = Except.ok e := by
  simp [get_edge, store_cfHandle_mem g _ h2, h3]

theorem rustSplitFirst_person_id (tok : Option String) (fresh : String) :
    rustSplitFirst (generatedIdNew personFam tok fresh) = some personFam := rfl

theorem rustSplitFirst_company_id (tok : Option String) (fresh : String) :
    rustSplitFirst (generatedIdNew companyFam tok fresh) = some companyFam := rfl

theorem familiesOf_foldl (es : List SchemaEdge) (acc : List String) :
    es.foldl (fun a e => a ++ [e.name]) acc = acc ++ es.map SchemaEdge.name := by
  induction es generalizing acc with
  | nil => simp
  | cons e es ih => simp [ih]

theorem familiesOf_eq_edge_names (s : Schema) :
    familiesOf s = s.edges.map SchemaEdge.name := by
  simpa using familiesOf_foldl s.edges []

/-! ## Claims -/

/-- C1: the claim says add_edge writes the edge record and both endpoint
nodes inside one store-level transaction, so a failing add_edge leaves all
three keys unchanged. The code does not: the two endpoint nodes are
persisted through update_node's direct `db.put_cf`, outside the open
transaction. Evaluated at a store whose Company family is missing (the
state Graph::new actually produces, since only edge families are created):
add_edge fails, the buffered edge write is dropped unwritten, yet the
source node's key has already been overwritten with the linked record —
an observable partial state. -/
theorem c1_add_edge_partial_state_on_failure :
    add_edge storeNoCompany edgeW personW companyW
      = (Except.error GraphError.FindFamilyError,
         storeNoCompany.putCf personFam personW.id.val (StoredVal.person personWLinked))
    ∧ storeNoCompany.getCf personFam personW.id.val = some (StoredVal.person personW)
    ∧ (storeNoCompany.putCf personFam personW.id.val
        (StoredVal.person personWLinked)).getCf personFam personW.id.val
      = some (StoredVal.person personWLinked)
    ∧ (storeNoCompany.putCf personFam personW.id.val
        (StoredVal.person personWLinked)).getCf employsAtFam edgeW.id.val = none
    ∧ (personWLinked == personW) = false :=
  ⟨rfl, rfl, rfl, rfl, by decide⟩

/-- C2: the claim says the compiler's emitted enumeration holds every
NodeKind and EdgeKind name and Graph::new creates a family for each, so
every declared kind's family exists afterwards. In build.rs the push into
`families` sits only in the edge loop, so the enumeration holds the
edge-kind names alone: after Graph::new over the concrete schema the
Person and Company families do not exist, and add_node on a Person record
fails with FindFamilyError. -/
theorem c2_families_enumerates_only_edge_kinds :
    (∀ s : Schema, familiesOf s = s.edges.map SchemaEdge.name)
    ∧ familiesOf schemaPC = [employsAtFam]
    ∧ (graphNew [defaultFam] schemaPC).families = [defaultFam, employsAtFam]
    ∧ personFam ∈ schemaPC.nodes.map SchemaNode.name
    ∧ companyFam ∈ schemaPC.nodes.map SchemaNode.name
    ∧ personFam ∉ (graphNew [defaultFam] schemaPC).families
    ∧ companyFam ∉ (graphNew [defaultFam] schemaPC).families
    ∧ add_node (graphNew [defaultFam] schemaPC) personW
      = Except.error GraphError.FindFamilyError :=
  ⟨familiesOf_eq_edge_names, rfl, rfl, by decide, by decide, by decide, by decide, rfl⟩

/-- C4: the claim says an identifier without ':' makes get_node and
remove_node fail with the identifier-parse error before any store access.
Rust's `split(':').next()` always yields a first item — the whole string
when no separator occurs — so the `.ok_or(ParseNodeIdError)` branch is
dead: the whole identifier is used as the family name, the family lookup
and the read happen, and the operations fail with FindFamilyError (or even
succeed, when a family of that name holds the key), never with
ParseNodeIdError. -/
theorem c4_no_separator_still_reaches_store :
    get_node (T := Person) storeAll abcFam = Except.error GraphError.FindFamilyError
    ∧ remove_node storeAll abcFam = Except.error GraphError.FindFamilyError
    ∧ get_node (T := Person) storeAbc abcFam = Except.ok personAbc
    ∧ remove_node storeAbc abcFam = Except.ok (storeAbc.delCf abcFam abcFam)
    ∧ rustSplitFirst abcFam = some abcFam
    ∧ (∀ nid : String, ∃ seg : String, rustSplitFirst nid = some seg) :=
  ⟨rfl, rfl, rfl, rfl, rfl, fun nid => ⟨_, rfl⟩⟩

/-- C7: constructing an identifier for kind N from a caller token t yields
exactly "N:t"; constructing without a token appends the generated xid
token, which is a non-empty (20-character) string. -/
theorem c7_identifier_construction :
    (∀ kind t fresh : String, generatedIdNew kind (some t) fresh = kind ++ ":" ++ t)
    ∧ (∀ kind : String, ∀ n : Nat,
        generatedIdNew kind none (xidString n) = kind ++ ":" ++ xidString n)
    ∧ (∀ n : Nat, (xidString n).length = 20)
    ∧ (∀ n : Nat, 0 < (xidString n).length)
    ∧ (∀ t fresh nm : String,
        (Person.new (some t) fresh nm).id.val = personFam ++ ":" ++ t) :=
  ⟨fun _ _ _ => rfl, fun _ _ => rfl,
   fun n => by simp [xidString, String.length],
   fun n => by simp [xidString, String.length],
   fun _ _ _ => rfl⟩

theorem famKey_ne_of_fam_ne (f1 k1 f2 k2 : String) (h : f1 ≠ f2) :
    (f1, k1) ≠ (f2, k2) := by
  intro hp
  exact h (congrArg Prod.fst hp)

/-- C6: add_node writes the serialized record under its own identifier in
its kind's family and returns it unchanged; get_node recovers the family
from the identifier's prefix and decodes the stored bytes back to an equal
record. The hypotheses record what the generated layer guarantees for
every record it constructs: the identifier's prefix is the record's family
name, and the codec round-trips. -/
theorem c6_add_node_get_node_roundtrip {T : Type} [NodeRec T] (g : Store) (r : T)
    (hid : rustSplitFirst (NodeRec.idStr r) = some (NodeRec.familyName r))
    (hrt : NodeRec.dec (T := T) (NodeRec.enc r) = some r)
    (hfam : NodeRec.familyName r ∈ g.families) :
    add_node g r
      = Except.ok (r, g.putCf (NodeRec.familyName r) (NodeRec.idStr r) (NodeRec.enc r))
    ∧ get_node (g.putCf (NodeRec.familyName r) (NodeRec.idStr r) (NodeRec.enc r))
        (NodeRec.idStr r) = Except.ok r := by
  refine ⟨add_node_found g r hfam, ?_⟩
  exact get_node_eval _ _ (NodeRec.familyName r) (NodeRec.enc r) r hid hfam
    (store_getCf_putCf_self g _ _ _) hrt

theorem c6_witness :
    rustSplitFirst (NodeRec.idStr personW) = some (NodeRec.familyName personW)
    ∧ NodeRec.dec (T := Person) (NodeRec.enc personW) = some personW
    ∧ NodeRec.familyName personW ∈ storeAll.families
    ∧ (add_node storeAll personW
        = Except.ok (personW,
            storeAll.putCf personFam personW.id.val (StoredVal.person personW))
       ∧ get_node (storeAll.putCf personFam personW.id.val (StoredVal.person personW))
           personW.id.val = Except.ok personW) :=
  ⟨rfl, rfl, by decide,
   c6_add_node_get_node_roundtrip storeAll personW rfl rfl (by decide)⟩

/-- C10: add_node performs a plain put: on an identifier already present
in its kind's family it succeeds, silently replaces the stored record,
and leaves the store in exactly the state update_node would — there is no
duplicate-key error. -/
theorem c10_add_node_overwrites {T : Type} [NodeRec T] (g : Store) (r : T) (old : StoredVal)
    (hfam : NodeRec.familyName r ∈ g.families)
    (hpresent : g.getCf (NodeRec.familyName r) (NodeRec.idStr r) = some old) :
    add_node g r
      = Except.ok (r, g.putCf (NodeRec.familyName r) (NodeRec.idStr r) (NodeRec.enc r))
    ∧ update_node g r
      = Except.ok (g.putCf (NodeRec.familyName r) (NodeRec.idStr r) (NodeRec.enc r))
    ∧ (g.putCf (NodeRec.familyName r) (NodeRec.idStr r) (NodeRec.enc r)).getCf
        (NodeRec.familyName r) (NodeRec.idStr r) = some (NodeRec.enc r) :=
  ⟨add_node_found g r hfam, update_node_found g r hfam, store_getCf_putCf_self g _ _ _⟩

theorem c10_witness :
    NodeRec.familyName personRenamed ∈ storeAll.families
    ∧ storeAll.getCf (NodeRec.familyName personRenamed) (NodeRec.idStr personRenamed)
      = some (StoredVal.person personW)
    ∧ (add_node storeAll personRenamed
        = Except.ok (personRenamed,
            storeAll.putCf personFam personRenamed.id.val (StoredVal.person personRenamed))
       ∧ update_node storeAll personRenamed
        = Except.ok
            (storeAll.putCf personFam personRenamed.id.val (StoredVal.person personRenamed))
       ∧ (storeAll.putCf personFam personRenamed.id.val
            (StoredVal.person personRenamed)).getCf personFam personRenamed.id.val
        = some (StoredVal.person personRenamed))
    ∧ (StoredVal.person personRenamed == StoredVal.person personW) = false :=
  ⟨by decide, rfl,
   c10_add_node_overwrites storeAll personRenamed (StoredVal.person personW) (by decide) rfl,
   by decide⟩

/-- C8: remove_edge deletes only the fetched edge record's own key in the
edge's family: every key of every other family — in particular the two
endpoint node records with their ref sets — and every other key of the
edge's family read exactly as before, so the corresponding ref-set entries
are not retracted. -/
theorem c8_remove_edge_touches_only_edge_key (g g2 : Store) (eid : EmploysAtId)
    (h : remove_edge g eid = Except.ok g2) :
    g2.families = g.families
    ∧ ∃ e : EmploysAt, get_edge g eid = Except.ok e
      ∧ (∀ fam key : String, fam ≠ employsAtFam → g2.getCf fam key = g.getCf fam key)
      ∧ (∀ key : String, key ≠ e.id.val →
          g2.getCf employsAtFam key = g.getCf employsAtFam key) := by
  unfold remove_edge at h
  cases hc : g.cfHandle employsAtFam with
  | none =>
    rw [hc] at h
    simp at h
  | some fam =>
    obtain ⟨rfl, hmem⟩ := store_cfHandle_some g _ _ hc
    rw [hc] at h
    cases he : get_edge g eid with
    | error err =>
      rw [he] at h
      simp at h
    | ok e =>
      rw [he] at h
      simp only [Except.ok.injEq] at h
      rw [txnCommit_del] at h
      subst h
      refine ⟨store_families_delCf g _ _, e, rfl, ?_, ?_⟩
      · intro fam key hne
        exact store_getCf_delCf_other g _ _ _ _
          (famKey_ne_of_fam_ne fam key employsAtFam e.id.val hne)
      · intro key hne
        apply store_getCf_delCf_other
        intro hp
        exact hne (congrArg Prod.snd hp)

theorem c8_witness :
    remove_edge storeWithEdge edgeW.id = Except.ok storeEdgeRemoved
    ∧ (storeEdgeRemoved.families = storeWithEdge.families
       ∧ ∃ e : EmploysAt, get_edge storeWithEdge edgeW.id = Except.ok e
         ∧ (∀ fam key : String, fam ≠ employsAtFam →
             storeEdgeRemoved.getCf fam key = storeWithEdge.getCf fam key)
         ∧ (∀ key : String, key ≠ e.id.val →
             storeEdgeRemoved.getCf employsAtFam key
               = storeWithEdge.getCf employsAtFam key)) :=
  ⟨rfl, c8_remove_edge_touches_only_edge_key storeWithEdge storeEdgeRemoved edgeW.id rfl⟩

/-- C3 (amended): after add_edge(e, a, b) succeeds, get_node on a's
identifier returns a's record with e's identifier appended to the outbound
ref set, tagged with e's kind; get_node on b's identifier returns b's
record with e's identifier appended to the inbound ref set; and get_edge
on e's identifier returns the edge record e unchanged — whose Connection
endpoints are e's own, equal to a's and b's identifiers exactly when e's
Connection was constructed from them, since add_edge never checks or
rewrites the Connection against the endpoint nodes passed in. -/
theorem c3_add_edge_links_endpoints (a : Person) (b : Company) (e : EmploysAt)
    (g g2 : Store)
    (ha : rustSplitFirst a.id.val = some personFam)
    (hb : rustSplitFirst b.id.val = some companyFam)
    (h : add_edge g e a b = (Except.ok (), g2)) :
    get_node g2 a.id.val
      = Except.ok (⟨a.id, a.in_edge_ids,
          a.out_edge_ids ++ [PersonOutEdge.EmploysAtId e.id], a.name⟩ : Person)
    ∧ PersonOutEdge.EmploysAtId e.id
        ∈ a.out_edge_ids ++ [PersonOutEdge.EmploysAtId e.id]
    ∧ get_node g2 b.id.val
      = Except.ok (⟨b.id, b.in_edge_ids ++ [CompanyInEdge.EmploysAtId e.id],
          b.out_edge_ids, b.name⟩ : Company)
    ∧ CompanyInEdge.EmploysAtId e.id
        ∈ b.in_edge_ids ++ [CompanyInEdge.EmploysAtId e.id]
    ∧ get_edge g2 e.id = Except.ok e
    ∧ (e.connection = EmploysAtConnection.Employment a.id b.id →
        e.connection.endpoints = (a.id.val, b.id.val)) := by
  unfold add_edge at h
  cases hcE : g.cfHandle employsAtFam with
  | none =>
    rw [hcE] at h
    simp at h
  | some fam =>
    obtain ⟨rfl, hmemE⟩ := store_cfHandle_some g _ _ hcE
    rw [hcE] at h
    simp only at h
    by_cases hmP : personFam ∈ g.families
    · rw [update_node_found g _ (show NodeRec.familyName _ ∈ g.families from hmP)] at h
      simp only [nodeRec_person_familyName, nodeRec_person_idStr, nodeRec_person_enc] at h
      by_cases hmC : companyFam ∈ g.families
      · rw [update_node_found
            (g.putCf personFam a.id.val
              (StoredVal.person ⟨a.id, a.in_edge_ids,
                a.out_edge_ids ++ [PersonOutEdge.EmploysAtId e.id], a.name⟩))
            (⟨b.id, b.in_edge_ids ++ [CompanyInEdge.EmploysAtId e.id],
              b.out_edge_ids, b.name⟩ : Company) hmC] at h
        simp only [nodeRec_company_familyName, nodeRec_company_idStr,
          nodeRec_company_enc, txnCommit_put, Prod.mk.injEq, true_and] at h
        subst h
        have hPE : (personFam, a.id.val) ≠ (employsAtFam, e.id.val) :=
          famKey_ne_of_fam_ne _ _ _ _ (by decide)
        have hPC : (personFam, a.id.val) ≠ (companyFam, b.id.val) :=
          famKey_ne_of_fam_ne _ _ _ _ (by decide)
        have hCE : (companyFam, b.id.val) ≠ (employsAtFam, e.id.val) :=
          famKey_ne_of_fam_ne _ _ _ _ (by decide)
        refine ⟨?_, List.mem_append_right _ (List.mem_singleton.mpr rfl), ?_,
          List.mem_append_right _ (List.mem_singleton.mpr rfl), ?_, ?_⟩
        · refine get_node_eval _ _ personFam
            (StoredVal.person ⟨a.id, a.in_edge_ids,
              a.out_edge_ids ++ [PersonOutEdge.EmploysAtId e.id], a.name⟩) _ ha ?_ ?_ rfl
          · exact hmP
          · rw [store_getCf_putCf_other _ _ _ _ _ _ hPE,
              store_getCf_putCf_other _ _ _ _ _ _ hPC]
            exact store_getCf_putCf_self g _ _ _
        · refine get_node_eval _ _ companyFam
            (StoredVal.company ⟨b.id, b.in_edge_ids ++ [CompanyInEdge.EmploysAtId e.id],
              b.out_edge_ids, b.name⟩) _ hb ?_ ?_ rfl
          · exact hmC
          · rw [store_getCf_putCf_other _ _ _ _ _ _ hCE]
            exact store_getCf_putCf_self _ _ _ _
        · exact get_edge_eval _ _ _ hmemE (store_getCf_putCf_self _ _ _ _)
        · intro hconn
          rw [hconn]
          rfl
      · rw [update_node_missing _ _ (show NodeRec.familyName _ ∉ _ from hmC)] at h
        simp at h
    · rw [update_node_missing g _ (show NodeRec.familyName _ ∉ g.families from hmP)] at h
      simp at h

theorem c3_witness :
    rustSplitFirst personW.id.val = some personFam
    ∧ rustSplitFirst companyW.id.val = some companyFam
    ∧ add_edge storeAll edgeW personW companyW = (Except.ok (), storeAfterEdge)
    ∧ (get_node storeAfterEdge personW.id.val = Except.ok personWLinked
       ∧ PersonOutEdge.EmploysAtId edgeW.id
           ∈ personW.out_edge_ids ++ [PersonOutEdge.EmploysAtId edgeW.id]
       ∧ get_node storeAfterEdge companyW.id.val = Except.ok companyWLinked
       ∧ CompanyInEdge.EmploysAtId edgeW.id
           ∈ companyW.in_edge_ids ++ [CompanyInEdge.EmploysAtId edgeW.id]
       ∧ get_edge storeAfterEdge edgeW.id = Except.ok edgeW
       ∧ (edgeW.connection = EmploysAtConnection.Employment personW.id companyW.id →
           edgeW.connection.endpoints = (personW.id.val, companyW.id.val))) :=
  ⟨rfl, rfl, rfl,
   c3_add_edge_links_endpoints personW companyW edgeW storeAll storeAfterEdge rfl rfl rfl⟩

/-- C3 counterexample to the claim as stated: add_edge succeeds for an
edge whose Connection was built from other identifiers than the endpoint
nodes passed in, and get_edge then returns Connection endpoints different
from a's identifier — the claim's 'endpoints equal a's and b's
identifiers' fails. -/
theorem c3_counterexample_connection_not_checked :
    (add_edge storeAll edgeMismatch personW companyW).1 = Except.ok ()
    ∧ get_edge (add_edge storeAll edgeMismatch personW companyW).2 edgeMismatch.id
      = Except.ok edgeMismatch
    ∧ edgeMismatch.connection.endpoints
      = (generatedIdNew personFam (some graceTok) (xidString 4), companyW.id.val)
    ∧ (edgeMismatch.connection.endpoints.1 == personW.id.val) = false :=
  ⟨rfl, rfl, rfl, by decide⟩

/-! ## Lemmas about the node_edge_types computation -/

theorem lookupA_upsert {A : Type} (k : String) (d : A) (f : A → A)
    (m : List (String × A)) (q : String) :
    lookupA (upsert k d f m) q
      = if q = k then some (f ((lookupA m k).getD d)) else lookupA m q := by
  induction m with
  | nil => by_cases h : q = k <;> simp [upsert, lookupA, h]
  | cons hd r ih =>
    obtain ⟨k2, v⟩ := hd
    by_cases hk : k = k2
    · subst hk
      by_cases hq : q = k <;> simp [upsert, lookupA, hq]
    · by_cases hq : q = k2
      · have hqk : ¬ q = k := fun hc => hk (hc ▸ hq)
        have hk2 : ¬ k2 = k := fun hc => hk hc.symm
        simp [upsert, lookupA, hk, hq, hqk, hk2]
      · simp [upsert, lookupA, hk, hq, ih]

theorem addInEdge_fst_mem (en : String) (p : EdgePair) (E : String) :
    E ∈ (addInEdge en p).1 ↔ E ∈ p.1 ∨ E = en := by
  unfold addInEdge
  split
  · rename_i hmem
    constructor
    · exact Or.inl
    · rintro (h1 | rfl)
      · exact h1
      · exact hmem
  · simp [List.mem_append]

theorem addInEdge_snd (en : String) (p : EdgePair) : (addInEdge en p).2 = p.2 := by
  unfold addInEdge
  split <;> rfl

theorem addOutEdge_fst (en : String) (p : EdgePair) : (addOutEdge en p).1 = p.1 := by
  unfold addOutEdge
  split <;> rfl

theorem addOutEdge_snd_mem (en : String) (p : EdgePair) (E : String) :
    E ∈ (addOutEdge en p).2 ↔ E ∈ p.2 ∨ E = en := by
  unfold addOutEdge
  split
  · rename_i hmem
    constructor
    · exact Or.inl
    · rintro (h1 | rfl)
      · exact h1
      · exact hmem
  · simp [List.mem_append]

theorem addInEdge_fst_nodup (en : String) (p : EdgePair) (h : p.1.Nodup) :
    (addInEdge en p).1.Nodup := by
  unfold addInEdge
  split
  · exact h
  · rename_i hmem
    simp [List.nodup_append, h, hmem]

theorem addOutEdge_snd_nodup (en : String) (p : EdgePair) (h : p.2.Nodup) :
    (addOutEdge en p).2.Nodup := by
  unfold addOutEdge
  split
  · exact h
  · rename_i hmem
    simp [List.nodup_append, h, hmem]

theorem insOf_upsert_addOut (k en : String) (m : EdgeMap) (N : String) :
    insOf (upsert k ([], []) (addOutEdge en) m) N = insOf m N := by
  unfold insOf
  rw [lookupA_upsert]
  by_cases h : N = k
  · subst h
    cases lookupA m N <;> simp [addOutEdge_fst]
  · simp [h]

theorem outsOf_upsert_addIn (k en : String) (m : EdgeMap) (N : String) :
    outsOf (upsert k ([], []) (addInEdge en) m) N = outsOf m N := by
  unfold outsOf
  rw [lookupA_upsert]
  by_cases h : N = k
  · subst h
    cases lookupA m N <;> simp [addInEdge_snd]
  · simp [h]

theorem insOf_upsert_addIn (k en : String) (m : EdgeMap) (N : String) :
    insOf (upsert k ([], []) (addInEdge en) m) N
      = if N = k then (addInEdge en ((lookupA m k).getD ([], []))).1 else insOf m N := by
  unfold insOf
  rw [lookupA_upsert]
  by_cases h : N = k <;> simp [h]

theorem outsOf_upsert_addOut (k en : String) (m : EdgeMap) (N : String) :
    outsOf (upsert k ([], []) (addOutEdge en) m) N
      = if N = k then (addOutEdge en ((lookupA m k).getD ([], []))).2 else outsOf m N := by
  unfold outsOf
  rw [lookupA_upsert]
  by_cases h : N = k <;> simp [h]

theorem mem_insOf_process (en : String) (m : EdgeMap) (c : SchemaConnection) (N E : String) :
    E ∈ insOf (processConnection en m c) N
      ↔ E ∈ insOf m N ∨ (c.to_ = N ∧ en = E) := by
  by_cases h : N = c.to_
  · subst h
    unfold processConnection
    rw [insOf_upsert_addIn, if_pos rfl]
    have hx : ((lookupA (upsert c.from_ ([], []) (addOutEdge en) m) c.to_).getD ([], [])).1
        = insOf m c.to_ := insOf_upsert_addOut c.from_ en m c.to_
    rw [addInEdge_fst_mem, hx]
    constructor
    · rintro (h1 | rfl)
      · exact Or.inl h1
      · exact Or.inr ⟨rfl, rfl⟩
    · rintro (h1 | ⟨-, rfl⟩)
      · exact Or.inl h1
      · exact Or.inr rfl
  · unfold processConnection
    rw [insOf_upsert_addIn, if_neg h, insOf_upsert_addOut]
    constructor
    · exact Or.inl
    · rintro (h1 | ⟨hto, rfl⟩)
      · exact h1
      · exact absurd hto.symm h

theorem mem_outsOf_process (en : String) (m : EdgeMap) (c : SchemaConnection) (N E : String) :
    E ∈ outsOf (processConnection en m c) N
      ↔ E ∈ outsOf m N ∨ (c.from_ = N ∧ en = E) := by
  by_cases h : N = c.from_
  · subst h
    unfold processConnection
    rw [outsOf_upsert_addIn, outsOf_upsert_addOut, if_pos rfl]
    rw [addOutEdge_snd_mem]
    constructor
    · rintro (h1 | rfl)
      · exact Or.inl h1
      · exact Or.inr ⟨rfl, rfl⟩
    · rintro (h1 | ⟨-, rfl⟩)
      · exact Or.inl h1
      · exact Or.inr rfl
  · unfold processConnection
    rw [outsOf_upsert_addIn, outsOf_upsert_addOut, if_neg h]
    constructor
    · exact Or.inl
    · rintro (h1 | ⟨hfrom, rfl⟩)
      · exact h1
      · exact absurd hfrom.symm h

theorem nodup_insOf_process (en : String) (m : EdgeMap) (c : SchemaConnection) (N : String)
    (h : (insOf m N).Nodup) : (insOf (processConnection en m c) N).Nodup := by
  by_cases hN : N = c.to_
  · subst hN
    unfold processConnection
    rw [insOf_upsert_addIn, if_pos rfl]
    have hx : ((lookupA (upsert c.from_ ([], []) (addOutEdge en) m) c.to_).getD ([], [])).1
        = insOf m c.to_ := insOf_upsert_addOut c.from_ en m c.to_
    apply addInEdge_fst_nodup
    rw [hx]
    exact h
  · unfold processConnection
    rw [insOf_upsert_addIn, if_neg hN, insOf_upsert_addOut]
    exact h

theorem nodup_outsOf_process (en : String) (m : EdgeMap) (c : SchemaConnection) (N : String)
    (h : (outsOf m N).Nodup) : (outsOf (processConnection en m c) N).Nodup := by
  by_cases hN : N = c.from_
  · subst hN
    unfold processConnection
    rw [outsOf_upsert_addIn, outsOf_upsert_addOut, if_pos rfl]
    exact addOutEdge_snd_nodup en _ h
  · unfold processConnection
    rw [outsOf_upsert_addIn, outsOf_upsert_addOut, if_neg hN]
    exact h

theorem lookupA_process_none (en : String) (m : EdgeMap) (c : SchemaConnection) (N : String) :
    lookupA (processConnection en m c) N = none
      ↔ lookupA m N = none ∧ N ≠ c.to_ ∧ N ≠ c.from_ := by
  unfold processConnection
  rw [lookupA_upsert]
  by_cases h : N = c.to_
  · simp [h]
  · rw [if_neg h, lookupA_upsert]
    by_cases h2 : N = c.from_
    · simp [h, h2]
    · simp [h, h2]

theorem mem_insOf_foldl (l : List (String × SchemaConnection)) (m : EdgeMap) (N E : String) :
    E ∈ insOf (l.foldl (fun acc p => processConnection p.1 acc p.2) m) N
      ↔ E ∈ insOf m N ∨ ∃ p ∈ l, p.1 = E ∧ p.2.to_ = N := by
  induction l generalizing m with
  | nil => simp
  | cons p l ih =>
    simp only [List.foldl_cons]
    rw [ih, mem_insOf_process]
    simp only [List.mem_cons]
    constructor
    · rintro ((h1 | ⟨hto, rfl⟩) | ⟨q, hq, h2, h3⟩)
      · exact Or.inl h1
      · exact Or.inr ⟨p, Or.inl rfl, rfl, hto⟩
      · exact Or.inr ⟨q, Or.inr hq, h2, h3⟩
    · rintro (h1 | ⟨q, hq | hq, h2, h3⟩)
      · exact Or.inl (Or.inl h1)
      · subst hq
        exact Or.inl (Or.inr ⟨h3, h2⟩)
      · exact Or.inr ⟨q, hq, h2, h3⟩

theorem mem_outsOf_foldl (l : List (String × SchemaConnection)) (m : EdgeMap) (N E : String) :
    E ∈ outsOf (l.foldl (fun acc p => processConnection p.1 acc p.2) m) N
      ↔ E ∈ outsOf m N ∨ ∃ p ∈ l, p.1 = E ∧ p.2.from_ = N := by
  induction l generalizing m with
  | nil => simp
  | cons p l ih =>
    simp only [List.foldl_cons]
    rw [ih, mem_outsOf_process]
    simp only [List.mem_cons]
    constructor
    · rintro ((h1 | ⟨hfrom, rfl⟩) | ⟨q, hq, h2, h3⟩)
      · exact Or.inl h1
      · exact Or.inr ⟨p, Or.inl rfl, rfl, hfrom⟩
      · exact Or.inr ⟨q, Or.inr hq, h2, h3⟩
    · rintro (h1 | ⟨q, hq | hq, h2, h3⟩)
      · exact Or.inl (Or.inl h1)
      · subst hq
        exact Or.inl (Or.inr ⟨h3, h2⟩)
      · exact Or.inr ⟨q, hq, h2, h3⟩

theorem nodup_insOf_foldl (l : List (String × SchemaConnection)) (m : EdgeMap) (N : String)
    (h : (insOf m N).Nodup) :
    (insOf (l.foldl (fun acc p => processConnection p.1 acc p.2) m) N).Nodup := by
  induction l generalizing m with
  | nil => exact h
  | cons p l ih =>
    simp only [List.foldl_cons]
    exact ih _ (nodup_insOf_process p.1 m p.2 N h)

theorem nodup_outsOf_foldl (l : List (String × SchemaConnection)) (m : EdgeMap) (N : String)
    (h : (outsOf m N).Nodup) :
    (outsOf (l.foldl (fun acc p => processConnection p.1 acc p.2) m) N).Nodup := by
  induction l generalizing m with
  | nil => exact h
  | cons p l ih =>
    simp only [List.foldl_cons]
    exact ih _ (nodup_outsOf_process p.1 m p.2 N h)

theorem lookupA_foldl_none (l : List (String × SchemaConnection)) (m : EdgeMap) (N : String) :
    lookupA (l.foldl (fun acc p => processConnection p.1 acc p.2) m) N = none
      ↔ lookupA m N = none ∧ ∀ p ∈ l, p.2.to_ ≠ N ∧ p.2.from_ ≠ N := by
  induction l generalizing m with
  | nil => simp
  | cons p l ih =>
    simp only [List.foldl_cons]
    rw [ih, lookupA_process_none]
    simp only [List.forall_mem_cons]
    constructor
    · rintro ⟨⟨h1, h2, h3⟩, h4⟩
      exact ⟨h1, ⟨fun hc => h2 hc.symm, fun hc => h3 hc.symm⟩, h4⟩
    · rintro ⟨h1, ⟨h2, h3⟩, h4⟩
      exact ⟨⟨h1, fun hc => h2 hc.symm, fun hc => h3 hc.symm⟩, h4⟩

theorem nodeEdgeTypes_eq_foldl_aux (es : List SchemaEdge) (m : EdgeMap) :
    es.foldl (fun acc e => e.connections.foldl (processConnection e.name) acc) m
      = (connPairs es).foldl (fun acc p => processConnection p.1 acc p.2) m := by
  induction es generalizing m with
  | nil => rfl
  | cons e es ih =>
    simp only [List.foldl_cons, connPairs, List.foldl_append, List.foldl_map]
    exact ih _

theorem nodeEdgeTypes_eq_foldl (s : Schema) :
    nodeEdgeTypes s = (connPairs s.edges).foldl (fun acc p => processConnection p.1 acc p.2) [] :=
  nodeEdgeTypes_eq_foldl_aux s.edges []

theorem connPairs_hit_to (es : List SchemaEdge) (N E : String) :
    (∃ p ∈ connPairs es, p.1 = E ∧ p.2.to_ = N)
      ↔ ∃ e ∈ es, e.name = E ∧ ∃ c ∈ e.connections, c.to_ = N := by
  induction es with
  | nil => simp [connPairs]
  | cons e es ih =>
    simp only [connPairs, List.mem_append, List.mem_map, List.mem_cons]
    constructor
    · rintro ⟨p, ⟨c, hc, rfl⟩ | hp, h1, h2⟩
      · exact ⟨e, Or.inl rfl, h1, c, hc, h2⟩
      · obtain ⟨e2, he2, hn, c, hc, hto⟩ := ih.mp ⟨p, hp, h1, h2⟩
        exact ⟨e2, Or.inr he2, hn, c, hc, hto⟩
    · rintro ⟨e2, he2 | he2, hn, c, hc, hto⟩
      · subst he2
        exact ⟨(e2.name, c), Or.inl ⟨c, hc, rfl⟩, hn, hto⟩
      · obtain ⟨p, hp, h1, h2⟩ := ih.mpr ⟨e2, he2, hn, c, hc, hto⟩
        exact ⟨p, Or.inr hp, h1, h2⟩

theorem connPairs_hit_from (es : List SchemaEdge) (N E : String) :
    (∃ p ∈ connPairs es, p.1 = E ∧ p.2.from_ = N)
      ↔ ∃ e ∈ es, e.name = E ∧ ∃ c ∈ e.connections, c.from_ = N := by
  induction es with
  | nil => simp [connPairs]
  | cons e es ih =>
    simp only [connPairs, List.mem_append, List.mem_map, List.mem_cons]
    constructor
    · rintro ⟨p, ⟨c, hc, rfl⟩ | hp, h1, h2⟩
      · exact ⟨e, Or.inl rfl, h1, c, hc, h2⟩
      · obtain ⟨e2, he2, hn, c, hc, hfrom⟩ := ih.mp ⟨p, hp, h1, h2⟩
        exact ⟨e2, Or.inr he2, hn, c, hc, hfrom⟩
    · rintro ⟨e2, he2 | he2, hn, c, hc, hfrom⟩
      · subst he2
        exact ⟨(e2.name, c), Or.inl ⟨c, hc, rfl⟩, hn, hfrom⟩
      · obtain ⟨p, hp, h1, h2⟩ := ih.mpr ⟨e2, he2, hn, c, hc, hfrom⟩
        exact ⟨p, Or.inr hp, h1, h2⟩

theorem schemaHasInEdge_iff (s : Schema) (N E : String) :
    schemaHasInEdge s N E = true
      ↔ ∃ e ∈ s.edges, e.name = E ∧ ∃ c ∈ e.connections, c.to_ = N := by
  simp [schemaHasInEdge, List.any_eq_true]

theorem schemaHasOutEdge_iff (s : Schema) (N E : String) :
    schemaHasOutEdge s N E = true
      ↔ ∃ e ∈ s.edges, e.name = E ∧ ∃ c ∈ e.connections, c.from_ = N := by
  simp [schemaHasOutEdge, List.any_eq_true]

theorem connPairs_unmentioned (es : List SchemaEdge) (N : String)
    (h : ∀ e ∈ es, ∀ c ∈ e.connections, c.to_ ≠ N ∧ c.from_ ≠ N) :
    ∀ p ∈ connPairs es, p.2.to_ ≠ N ∧ p.2.from_ ≠ N := by
  induction es with
  | nil => simp [connPairs]
  | cons e es ih =>
    intro p hp
    rcases List.mem_append.mp hp with hp1 | hp2
    · obtain ⟨c, hc, rfl⟩ := List.mem_map.mp hp1
      exact h e (List.mem_cons_self e es) c hc
    · exact ih (fun e2 he2 => h e2 (List.mem_cons_of_mem e he2)) p hp2

theorem buildNodeLoopAux_none (m : EdgeMap) (ns : List SchemaNode) (n : SchemaNode)
    (hmem : n ∈ ns) (hnone : lookupA m n.name = none) : buildNodeLoopAux m ns = none := by
  induction ns with
  | nil => cases hmem
  | cons n2 rest ih =>
    rcases List.mem_cons.mp hmem with rfl | hmem2
    · unfold buildNodeLoopAux
      rw [hnone]
    · unfold buildNodeLoopAux
      cases hl : lookupA m n2.name with
      | none => rfl
      | some p => rw [ih hmem2]; rfl

/-- C5: whenever the compiler's node_edge_types map carries an entry for a
node kind N, its inbound list holds exactly the names of the edge kinds
declaring at least one connection targeting N — each exactly once — and
its outbound list exactly those declaring at least one connection sourced
at N; the generated sum types take one variant per listed edge kind, the
variant named after and carrying that edge kind's identifier type. -/
theorem c5_ref_sum_type_variants (s : Schema) (N : String) (ins outs : List String)
    (h : lookupA (nodeEdgeTypes s) N = some (ins, outs)) :
    (∀ E, E ∈ ins ↔ schemaHasInEdge s N E = true)
    ∧ (∀ E, E ∈ outs ↔ schemaHasOutEdge s N E = true)
    ∧ ins.Nodup ∧ outs.Nodup
    ∧ refVariantsOf ins = ins.map (fun e => (e ++ idSuffix, e ++ idSuffix))
    ∧ refVariantsOf outs = outs.map (fun e => (e ++ idSuffix, e ++ idSuffix)) := by
  have hins : insOf (nodeEdgeTypes s) N = ins := by
    unfold insOf
    rw [h]
    rfl
  have houts : outsOf (nodeEdgeTypes s) N = outs := by
    unfold outsOf
    rw [h]
    rfl
  refine ⟨?_, ?_, ?_, ?_, rfl, rfl⟩
  · intro E
    rw [← hins, nodeEdgeTypes_eq_foldl, mem_insOf_foldl, schemaHasInEdge_iff,
      ← connPairs_hit_to]
    simp [insOf, lookupA]
  · intro E
    rw [← houts, nodeEdgeTypes_eq_foldl, mem_outsOf_foldl, schemaHasOutEdge_iff,
      ← connPairs_hit_from]
    simp [outsOf, lookupA]
  · rw [← hins, nodeEdgeTypes_eq_foldl]
    exact nodup_insOf_foldl _ _ _ (by simp [insOf, lookupA])
  · rw [← houts, nodeEdgeTypes_eq_foldl]
    exact nodup_outsOf_foldl _ _ _ (by simp [outsOf, lookupA])

theorem c5_witness :
    lookupA (nodeEdgeTypes schemaPC) companyFam = some ([employsAtFam], [])
    ∧ ((∀ E, E ∈ [employsAtFam] ↔ schemaHasInEdge schemaPC companyFam E = true)
       ∧ (∀ E, E ∈ ([] : List String) ↔ schemaHasOutEdge schemaPC companyFam E = true)
       ∧ ([employsAtFam] : List String).Nodup ∧ ([] : List String).Nodup
       ∧ refVariantsOf [employsAtFam]
         = [employsAtFam].map (fun e => (e ++ idSuffix, e ++ idSuffix))
       ∧ refVariantsOf []
         = ([] : List String).map (fun e => (e ++ idSuffix, e ++ idSuffix))) :=
  ⟨rfl, c5_ref_sum_type_variants schemaPC companyFam [employsAtFam] [] rfl⟩

/-- C9: a node kind that appears in no connection rule of any edge kind
has no entry in node_edge_types, so the node loop's
`node_edge_types.get(&node.name).unwrap()` panics: declaring such an
isolated node kind aborts code generation instead of producing a node type
with empty ref sum types. -/
theorem c9_isolated_node_kind_panics (s : Schema) (N : String)
    (h : ∀ e ∈ s.edges, ∀ c ∈ e.connections, c.to_ ≠ N ∧ c.from_ ≠ N) :
    lookupA (nodeEdgeTypes s) N = none
    ∧ (∀ n ∈ s.nodes, n.name = N → buildNodeLoop s = none) := by
  have hnone : lookupA (nodeEdgeTypes s) N = none := by
    rw [nodeEdgeTypes_eq_foldl, lookupA_foldl_none]
    exact ⟨rfl, connPairs_unmentioned s.edges N h⟩
  refine ⟨hnone, ?_⟩
  intro n hn hname
  unfold buildNodeLoop
  refine buildNodeLoopAux_none _ _ n hn ?_
  rw [hname]
  exact hnone

theorem c9_witness :
    (∀ e ∈ schemaIso.edges, ∀ c ∈ e.connections, c.to_ ≠ ghostFam ∧ c.from_ ≠ ghostFam)
    ∧ (lookupA (nodeEdgeTypes schemaIso) ghostFam = none
       ∧ (∀ n ∈ schemaIso.nodes, n.name = ghostFam → buildNodeLoop schemaIso = none))
    ∧ ghostFam ∈ schemaIso.nodes.map SchemaNode.name
    ∧ buildNodeLoop schemaIso = none :=
  ⟨by decide, c9_isolated_node_kind_panics schemaIso ghostFam (by decide), by decide, rfl⟩
